import Mathlib

set_option autoImplicit false

/-!
Shallow embedding of `expiringcache.go` (package expiringcache).

The cache's ordered store is the external `avltree.ObjectTree` keyed by
`CacheValue.Compare` (lexicographic on `Key`); we model it by its in-order
list of entries, so `Len` is `List.length`, `At i` is list indexing, `Iter`
is the list itself, and `Add` / `Find` / `Remove` are comparison-driven
operations on the sorted list.

`rand.Intn n` is modelled by consuming one value `r` from an explicit stream
of naturals and reducing it `% n` (for `n > 0` this is a value in `[0, n)`;
an exhausted stream behaves as the constant stream `0`).  `rand.Intn 0`
panics in Go; a panic (there, or an out-of-bounds `At`) is modelled by the
`Option`-returning variants `sampleLoop` / `evictKey?` / `update?` /
`popRandom?` yielding `none`.

Wall-clock reads (`time.Now().UTC().Unix()`) are modelled by an explicit
`now : Int` argument; the two reads inside one `PutWithExpiry` call (one in
`update`/`evictKey`, one for the new entry's `ExpireAt`) receive the same
`now`.  The mutex is dropped: each operation is a pure state transformer.
-/

namespace ExpiringCache

/-- Kernel-reducible decidability for Go's lexicographic `<` on string keys
(the default `String.decidableLT` is iterator-based and does not reduce
inside `decide`). -/
instance (priority := 2000) decidableStrLt :
    DecidableRel (· < · : String → String → Prop) :=
  fun a b => decidable_of_iff (a.toList < b.toList) String.lt_iff_toList_lt.symm

/-- Go `struct CacheValue` from expiringcache.go.  `value` models the Go
`interface{}` field, with `none` for Go's `nil`; `expireAt` is a Unix
timestamp in seconds (Go `int64`). -/
structure CacheValue (α : Type) where
  key : String
  value : Option α
  expireAt : Int
  deriving Repr, DecidableEq

/-- Go `func (p CacheValue) Compare(b avltree.Interface) int`: the store's
ordering contract, lexicographic on `Key` only. -/
def CacheValue.cmp {α : Type} (p b : CacheValue α) : Int :=
  if p.key < b.key then -1
  else if p.key > b.key then 1
  else 0

/-- Go `struct Cache` from expiringcache.go, minus the mutex.  The Go config
fields `Max`, `NEvictions`, `NSamples`, `PeriodicEvictionInterval` are counts
(modelled as `Nat`); `duration` is in seconds. -/
structure Cache (α : Type) where
  duration : Int
  max : Nat
  nEvictions : Nat
  nSamples : Nat
  periodicEvictionInterval : Nat
  data : List (CacheValue α)
  deriving Repr, DecidableEq

variable {α : Type}

/-- Modelled from the spec: the external ordered store's find-by-key
("find-by-key (returns the entry or \x22not found\x22)", §4.1); on the
in-order entry list this is first-match lookup by key. -/
def findKey (key : String) : List (CacheValue α) → Option (CacheValue α)
  | [] => none
  | w :: ws => if w.key = key then some w else findKey key ws

/-- Modelled from the spec: the external ordered store's
insert-or-keep (`Add`): walks by the `Compare` order; when the key is
already present the existing entry is kept (the new one is discarded) and
the duplicate flag is returned `true` (§4.1 "insert-or-update (returns
whether an existing entry was updated)", with the duplicate-update path of
§4.2 copying only the Value afterwards). -/
def addEntry (v : CacheValue α) : List (CacheValue α) → List (CacheValue α) × Bool
  | [] => ([v], false)
  | w :: ws =>
    if v.key < w.key then (v :: w :: ws, false)
    else if w.key < v.key then
      let r := addEntry v ws
      (w :: r.1, r.2)
    else (w :: ws, true)

/-- Modelled from the spec: the external ordered store's `Remove`, which
locates a node by the `Compare` order (key only) and deletes it; on the
entry list this removes the first entry with the given key. -/
def removeKey (key : String) : List (CacheValue α) → List (CacheValue α)
  | [] => []
  | w :: ws => if w.key = key then ws else w :: removeKey key ws

/-- The in-place `_v.Value = value` mutation of the duplicate-update path of
`PutWithExpiry`: the entry for `key` gets its value replaced, everything
else (including its `expireAt`) is untouched. -/
def updateValue (key : String) (value : Option α) (l : List (CacheValue α)) :
    List (CacheValue α) :=
  l.map fun w => if w.key = key then { w with value := value } else w

/-- One `rand.Intn n` draw from the random stream. -/
def draw (rng : List Nat) (n : Nat) : Nat × List Nat :=
  match rng with
  | [] => (0, [])
  | r :: rs => (r % n, rs)

/-- Initial `min_ts` of `evictKey`: `time.Now().UTC().Unix() + (365 * 86400)`. -/
def horizon (now : Int) : Int := now + 365 * 86400

/-- The sampling loop of `evictKey`: `n` rounds of
`v := p.data.At(rand.Intn(p.data.Len()))`, tracking `(min_ts, min_v)`;
`none` models the panic of `rand.Intn(0)` / out-of-bounds `At` on an empty
store. -/
def sampleLoop (l : List (CacheValue α)) :
    Nat → List Nat → Int → Option (CacheValue α) →
    Option (Int × Option (CacheValue α) × List Nat)
  | 0, rng, ts, mv => some (ts, mv, rng)
  | n + 1, rng, ts, mv =>
    let d := draw rng l.length
    match l[d.1]? with
    | none => none
    | some v =>
      if v.expireAt < ts then sampleLoop l n d.2 v.expireAt (some v)
      else sampleLoop l n d.2 ts mv

/-- Go `func (p *Cache) evictKey()`: samples `NSamples` (or 1 if 0) entries,
then removes `min_v` when it was set. -/
def evictKey? (c : Cache α) (now : Int) (rng : List Nat) :
    Option (Cache α × List Nat) :=
  let n := if c.nSamples = 0 then 1 else c.nSamples
  match sampleLoop c.data n rng (horizon now) none with
  | none => none
  | some (_, none, rng') => some (c, rng')
  | some (_, some v, rng') => some ({ c with data := removeKey v.key c.data }, rng')

/-- Eviction loop of Go `func (p *Cache) update()`:
`for i := 0; i < p.NEvictions && p.data.Len() > 0; i++ { p.evictKey() }`. -/
def updateLoop? (now : Int) : Cache α → List Nat → Nat → Option (Cache α × List Nat)
  | c, rng, 0 => some (c, rng)
  | c, rng, n + 1 =>
    if 0 < c.data.length then
      match evictKey? c now rng with
      | none => none
      | some (c', rng') => updateLoop? now c' rng' n
    else some (c, rng)

/-- Go `func (p *Cache) update()`: no-op when `Max == 0` or below capacity,
otherwise up to `NEvictions` eviction rounds. -/
def update? (c : Cache α) (now : Int) (rng : List Nat) :
    Option (Cache α × List Nat) :=
  if c.max = 0 ∨ c.data.length < c.max then some (c, rng)
  else updateLoop? now c rng c.nEvictions

/-- Total form of `update?` (it never panics, see the in-bounds lemmas). -/
def Cache.update (c : Cache α) (now : Int) (rng : List Nat) : Cache α × List Nat :=
  (update? c now rng).getD (c, rng)

/-- Go `func (p *Cache) PutWithExpiry(key, value, duration)`: eviction pass
first, then `Add`; on a duplicate only the existing entry's Value is
overwritten (the freshly built entry, `ExpireAt` included, is discarded). -/
def Cache.putWithExpiry (c : Cache α) (key : String) (value : Option α)
    (duration : Int) (now : Int) (rng : List Nat) : Cache α × List Nat :=
  let u := c.update now rng
  let v : CacheValue α := { key := key, value := value, expireAt := now + duration }
  let a := addEntry v u.1.data
  if a.2 then ({ u.1 with data := updateValue key value a.1 }, u.2)
  else ({ u.1 with data := a.1 }, u.2)

/-- Go `func (p *Cache) Put(key, value)`: delegates to `PutWithExpiry` with the
configured default `Duration`. -/
def Cache.put (c : Cache α) (key : String) (value : Option α)
    (now : Int) (rng : List Nat) : Cache α × List Nat :=
  c.putWithExpiry key value c.duration now rng

/-- Modelled from the spec: "Put(key, value): equivalent to
PutWithExpiry(key, value, Duration)" (§4.2) — the spec-side meaning of
`Put`, to be compared with `Cache.put` taken from the source. -/
def Cache.putSpec (c : Cache α) (key : String) (value : Option α)
    (now : Int) (rng : List Nat) : Cache α × List Nat :=
  c.putWithExpiry key value c.duration now rng

/-- Go `func (p *Cache) Get(key)`: the result starts as nil; if `Find` succeeds, `r`
becomes the entry's Value.  A stored nil value and a missing key both yield
`none`. -/
def Cache.get (c : Cache α) (key : String) : Option α :=
  match findKey key c.data with
  | some v => v.value
  | none => none

/-- Go `func (p *Cache) Del(key)`. -/
def Cache.del (c : Cache α) (key : String) : Cache α :=
  { c with data := removeKey key c.data }

/-- Go `func (p *Cache) PopRandom()`: when the store is non-empty, draws
`rand.Intn(Len)`, removes the entry at that index and returns its Value;
otherwise returns nil and leaves the store alone. -/
def popRandom? (c : Cache α) (rng : List Nat) :
    Option (Option α × Cache α × List Nat) :=
  if c.data.length ≠ 0 then
    let d := draw rng c.data.length
    match c.data[d.1]? with
    | none => none
    | some v => some (v.value, { c with data := removeKey v.key c.data }, d.2)
  else some (none, c, rng)

/-- Total form of `popRandom?` (it never panics, see the in-bounds lemmas). -/
def Cache.popRandom (c : Cache α) (rng : List Nat) :
    Option α × Cache α × List Nat :=
  (popRandom? c rng).getD (none, c, rng)

/-- Go `func (p *Cache) Exists(key)` (named `keyExists` here since `Exists` is
taken by Lean's existential). -/
def Cache.keyExists (c : Cache α) (key : String) : Bool :=
  (findKey key c.data).isSome

/-- Go `func (p *Cache) Count()`. -/
def Cache.count (c : Cache α) : Nat := c.data.length

/-- Go `func (p *Cache) Iter()`: the traversal of the store, i.e. the in-order
entry list. -/
def Cache.iter (c : Cache α) : List (CacheValue α) := c.data

/-- One pass of `func (p *Cache) evictPeriodically()` at time `now`:
collect every entry with `ExpireAt <= now` (the loop `continue`s on
`cv.ExpireAt > now`) into `to_remove`, then `Remove` each of them. -/
def Cache.sweepOnce (c : Cache α) (now : Int) : Cache α :=
  let toRemove := c.data.filter fun v => ! decide (v.expireAt > now)
  { c with data := toRemove.foldl (fun acc v => removeKey v.key acc) c.data }

/-- Go `func (p *Cache) Init()`: fresh empty store; the background sweep task
(started when `PeriodicEvictionInterval > 0`) is modelled by explicit
`Op.sweep` steps. -/
def Cache.init (duration : Int) (max nEvictions nSamples per : Nat) : Cache α :=
  { duration := duration, max := max, nEvictions := nEvictions,
    nSamples := nSamples, periodicEvictionInterval := per, data := [] }

/-- One public cache operation, with its inputs (wall clock and random
stream included, for the operations that consume them). -/
inductive Op (α : Type) where
  | put (key : String) (value : Option α) (now : Int) (rng : List Nat)
  | putWithExpiry (key : String) (value : Option α) (duration now : Int) (rng : List Nat)
  | get (key : String)
  | del (key : String)
  | popRandom (rng : List Nat)
  | keyExists (key : String)
  | count
  | iter
  | sweep (now : Int)

/-- The state transition of one operation (reads leave the state alone). -/
def applyOp (c : Cache α) : Op α → Cache α
  | .put k v now rng => (c.put k v now rng).1
  | .putWithExpiry k v d now rng => (c.putWithExpiry k v d now rng).1
  | .get _ => c
  | .del k => c.del k
  | .popRandom rng => (c.popRandom rng).2.1
  | .keyExists _ => c
  | .count => c
  | .iter => c
  | .sweep now => c.sweepOnce now

/-- Run a sequence of operations from a given state. -/
def run (c : Cache α) (ops : List (Op α)) : Cache α := ops.foldl applyOp c

/-- The store's ordering invariant: the in-order entry list is strictly
sorted by key (the `Compare` contract). -/
abbrev StrictSorted (l : List (CacheValue α)) : Prop :=
  l.Pairwise fun a b => a.key < b.key

/-- Keys are pairwise distinct. -/
abbrev NodupKeys (l : List (CacheValue α)) : Prop :=
  l.Pairwise fun a b => a.key ≠ b.key

end ExpiringCache

namespace ExpiringCache

variable {α : Type}

/-! ### Lemmas about the store primitives -/

theorem findKey_some_key {l : List (CacheValue α)} {key : String} {e : CacheValue α}
    (h : findKey key l = some e) : e.key = key := by
  induction l with
  | nil => simp [findKey] at h
  | cons w ws ih =>
    by_cases hw : w.key = key
    · rw [findKey, if_pos hw] at h
      cases h
      exact hw
    · rw [findKey, if_neg hw] at h
      exact ih h

theorem findKey_mem {l : List (CacheValue α)} {key : String} {e : CacheValue α}
    (h : findKey key l = some e) : e ∈ l := by
  induction l with
  | nil => simp [findKey] at h
  | cons w ws ih =>
    by_cases hw : w.key = key
    · rw [findKey, if_pos hw] at h
      cases h
      exact List.mem_cons_self _ _
    · rw [findKey, if_neg hw] at h
      exact List.mem_cons_of_mem w (ih h)

theorem findKey_updateValue (key : String) (value : Option α) (l : List (CacheValue α)) :
    findKey key (updateValue key value l) =
      (findKey key l).map fun w => { w with value := value } := by
  induction l with
  | nil => rfl
  | cons w ws ih =>
    by_cases hw : w.key = key
    · simp [updateValue, findKey, hw]
    · simpa [updateValue, findKey, hw] using ih

theorem addEntry_dup_fst {v : CacheValue α} {l : List (CacheValue α)}
    (h : (addEntry v l).2 = true) : (addEntry v l).1 = l := by
  induction l with
  | nil => simp [addEntry] at h
  | cons w ws ih =>
    by_cases h1 : v.key < w.key
    · simp [addEntry, h1] at h
    · by_cases h2 : w.key < v.key
      · simp only [addEntry, if_neg h1, if_pos h2] at h ⊢
        rw [ih h]
      · simp [addEntry, h1, h2]

theorem addEntry_dup_findKey {v : CacheValue α} {l : List (CacheValue α)}
    (h : (addEntry v l).2 = true) : (findKey v.key l).isSome = true := by
  induction l with
  | nil => simp [addEntry] at h
  | cons w ws ih =>
    by_cases h1 : v.key < w.key
    · simp [addEntry, h1] at h
    · by_cases h2 : w.key < v.key
      · have hh := ih (by simpa [addEntry, h1, h2] using h)
        have hne : w.key ≠ v.key := ne_of_lt h2
        simpa [findKey, hne] using hh
      · have heq : w.key = v.key := le_antisymm (not_lt.mp h1) (not_lt.mp h2)
        simp [findKey, heq]

theorem addEntry_not_dup_findKey {v : CacheValue α} {l : List (CacheValue α)}
    (h : (addEntry v l).2 = false) : findKey v.key (addEntry v l).1 = some v := by
  induction l with
  | nil => simp [addEntry, findKey]
  | cons w ws ih =>
    by_cases h1 : v.key < w.key
    · simp [addEntry, h1, findKey]
    · by_cases h2 : w.key < v.key
      · have h' : (addEntry v ws).2 = false := by simpa [addEntry, h1, h2] using h
        have hne : w.key ≠ v.key := ne_of_lt h2
        simpa [addEntry, h1, h2, findKey, hne] using ih h'
      · simp [addEntry, h1, h2] at h

theorem addEntry_of_findKey_isSome {v : CacheValue α} {l : List (CacheValue α)}
    (hs : StrictSorted l) (h : (findKey v.key l).isSome = true) :
    addEntry v l = (l, true) := by
  induction l with
  | nil => simp [findKey] at h
  | cons w ws ih =>
    rcases List.pairwise_cons.mp hs with ⟨hw, hws⟩
    by_cases hk : w.key = v.key
    · have h1 : ¬ v.key < w.key := by rw [hk]; exact lt_irrefl _
      have h2 : ¬ w.key < v.key := by rw [hk]; exact lt_irrefl _
      simp [addEntry, h1, h2]
    · have h' : (findKey v.key ws).isSome = true := by
        rw [findKey, if_neg hk] at h
        exact h
      obtain ⟨e, he⟩ := Option.isSome_iff_exists.mp h'
      have hlt : w.key < e.key := hw e (findKey_mem he)
      have h2 : w.key < v.key := findKey_some_key he ▸ hlt
      have h1 : ¬ v.key < w.key := asymm h2
      simp [addEntry, h1, h2, ih hws h']

theorem mem_addEntry {u v : CacheValue α} {l : List (CacheValue α)}
    (h : u ∈ (addEntry v l).1) : u = v ∨ u ∈ l := by
  induction l with
  | nil =>
    simp [addEntry] at h
    exact Or.inl h
  | cons w ws ih =>
    by_cases h1 : v.key < w.key
    · simp only [addEntry, if_pos h1, List.mem_cons] at h
      rcases h with h | h
      · exact Or.inl h
      · exact Or.inr (List.mem_cons.mpr h)
    · by_cases h2 : w.key < v.key
      · simp only [addEntry, if_neg h1, if_pos h2, List.mem_cons] at h
        rcases h with h | h
        · exact Or.inr (h ▸ List.mem_cons_self _ _)
        · rcases ih h with h' | h'
          · exact Or.inl h'
          · exact Or.inr (List.mem_cons_of_mem w h')
      · simp only [addEntry, if_neg h1, if_neg h2] at h
        exact Or.inr h

theorem addEntry_fst_length (v : CacheValue α) (l : List (CacheValue α)) :
    (addEntry v l).1.length =
      if (addEntry v l).2 = true then l.length else l.length + 1 := by
  induction l with
  | nil => simp [addEntry]
  | cons w ws ih =>
    by_cases h1 : v.key < w.key
    · simp [addEntry, h1]
    · by_cases h2 : w.key < v.key
      · cases hr : (addEntry v ws).2 <;>
          simp [addEntry, h1, h2, hr] at ih ⊢ <;> omega
      · simp [addEntry, h1, h2]

theorem updateValue_length (key : String) (value : Option α) (l : List (CacheValue α)) :
    (updateValue key value l).length = l.length := by
  simp [updateValue]

theorem removeKey_sublist (key : String) (l : List (CacheValue α)) :
    List.Sublist (removeKey key l) l := by
  induction l with
  | nil => simp [removeKey]
  | cons w ws ih =>
    by_cases h : w.key = key
    · rw [removeKey, if_pos h]
      exact List.sublist_cons_self w ws
    · rw [removeKey, if_neg h]
      exact ih.cons₂ w

theorem removeKey_length {l : List (CacheValue α)} {key : String}
    (h : ∃ w ∈ l, w.key = key) : (removeKey key l).length + 1 = l.length := by
  induction l with
  | nil => simp at h
  | cons w ws ih =>
    by_cases hw : w.key = key
    · simp [removeKey, hw]
    · obtain ⟨u, hu, huk⟩ := h
      rcases List.mem_cons.mp hu with rfl | hu'
      · exact absurd huk hw
      · have := ih ⟨u, hu', huk⟩
        simp only [removeKey, if_neg hw, List.length_cons]
        omega

theorem removeKey_eq_filter {l : List (CacheValue α)} {key : String} (h : NodupKeys l) :
    removeKey key l = l.filter fun w => ! decide (w.key = key) := by
  induction l with
  | nil => rfl
  | cons w ws ih =>
    rcases List.pairwise_cons.mp h with ⟨hw, hws⟩
    by_cases hk : w.key = key
    · have hall : ∀ u ∈ ws, u.key ≠ key := fun u hu e => hw u hu (hk.trans e.symm)
      have hfw : (! decide (w.key = key)) = false := by simp [hk]
      rw [removeKey, if_pos hk, List.filter_cons, hfw, if_neg (by simp)]
      exact (List.filter_eq_self.mpr fun u hu => by simp [hall u hu]).symm
    · simp [removeKey, hk, ih hws, List.filter_cons]

theorem removeKey_eq_eraseIdx {l : List (CacheValue α)} {i : Nat} {v : CacheValue α}
    (h : NodupKeys l) (hv : l[i]? = some v) : removeKey v.key l = l.eraseIdx i := by
  induction l generalizing i with
  | nil => simp at hv
  | cons w ws ih =>
    rcases List.pairwise_cons.mp h with ⟨hw, hws⟩
    cases i with
    | zero =>
      simp only [List.getElem?_cons_zero, Option.some.injEq] at hv
      simp [removeKey, hv, List.eraseIdx]
    | succ n =>
      have hv' : ws[n]? = some v := by simpa using hv
      have hvm : v ∈ ws := by
        have hlt : n < ws.length := by
          by_contra hge
          simp [List.getElem?_eq_none (Nat.le_of_not_lt hge)] at hv'
        have : ws[n] = v := by
          have := List.getElem?_eq_getElem hlt
          rw [this] at hv'
          exact Option.some.inj hv'
        exact this ▸ List.getElem_mem hlt
      have hne : w.key ≠ v.key := hw v hvm
      simp [removeKey, hne, List.eraseIdx, ih hws hv']

theorem StrictSorted.nodupKeys {l : List (CacheValue α)} (h : StrictSorted l) :
    NodupKeys l :=
  h.imp fun hab => ne_of_lt hab

theorem addEntry_sorted {l : List (CacheValue α)} (hs : StrictSorted l)
    (v : CacheValue α) : StrictSorted (addEntry v l).1 := by
  induction l with
  | nil => simp [addEntry]
  | cons w ws ih =>
    rcases List.pairwise_cons.mp hs with ⟨hw, hws⟩
    by_cases h1 : v.key < w.key
    · simp only [addEntry, if_pos h1]
      refine List.pairwise_cons.mpr ⟨?_, hs⟩
      intro u hu
      rcases List.mem_cons.mp hu with rfl | hu'
      · exact h1
      · exact h1.trans (hw u hu')
    · by_cases h2 : w.key < v.key
      · simp only [addEntry, if_neg h1, if_pos h2]
        refine List.pairwise_cons.mpr ⟨?_, ih hws⟩
        intro u hu
        rcases mem_addEntry hu with rfl | hu'
        · exact h2
        · exact hw u hu'
      · simp only [addEntry, if_neg h1, if_neg h2]
        exact hs

theorem updateValue_sorted {l : List (CacheValue α)} (hs : StrictSorted l)
    (key : String) (value : Option α) : StrictSorted (updateValue key value l) := by
  have hk : ∀ w : CacheValue α,
      (if w.key = key then { w with value := value } else w).key = w.key := by
    intro w
    by_cases h : w.key = key <;> simp [h]
  unfold updateValue StrictSorted
  rw [List.pairwise_map]
  exact hs.imp fun {a b} hab => by rw [hk a, hk b]; exact hab

theorem nodupKeys_filter_key_length_le_one {l : List (CacheValue α)} (h : NodupKeys l)
    (k : String) : (l.filter fun e => decide (e.key = k)).length ≤ 1 := by
  induction l with
  | nil => simp
  | cons w ws ih =>
    rcases List.pairwise_cons.mp h with ⟨hw, hws⟩
    by_cases hk : w.key = k
    · have hnil : ws.filter (fun e => decide (e.key = k)) = [] := by
        refine List.filter_eq_nil_iff.mpr fun u hu => ?_
        have : w.key ≠ u.key := hw u hu
        simp only [decide_eq_true_eq]
        exact fun e => this (hk.trans e.symm)
      simp [List.filter_cons, hk, hnil]
    · simp only [List.filter_cons, hk, decide_eq_true_eq, if_neg (hk : ¬_ = _)]
      exact ih hws

end ExpiringCache

namespace ExpiringCache

variable {α : Type}

/-! ### Lemmas about the random draws and the eviction pass -/

theorem getElem?_isSome_of_lt {β : Type} {l : List β} {i : Nat} (h : i < l.length) :
    (l[i]?).isSome = true := by
  simp [List.getElem?_eq_getElem h]

theorem draw_lt {n : Nat} (h : 0 < n) (rng : List Nat) : (draw rng n).1 < n := by
  rcases rng with _ | ⟨r, rs⟩
  · simpa [draw] using h
  · simpa [draw] using Nat.mod_lt r h

theorem sampleLoop_succ {l : List (CacheValue α)} {v : CacheValue α} {rng : List Nat}
    (h : l[(draw rng l.length).1]? = some v) (n : Nat) (ts : Int)
    (mv : Option (CacheValue α)) :
    sampleLoop l (n + 1) rng ts mv =
      if v.expireAt < ts then sampleLoop l n (draw rng l.length).2 v.expireAt (some v)
      else sampleLoop l n (draw rng l.length).2 ts mv := by
  rw [sampleLoop]
  simp only [h]

theorem sampleLoop_isSome {l : List (CacheValue α)} (hne : l ≠ []) :
    ∀ (n : Nat) (rng : List Nat) (ts : Int) (mv : Option (CacheValue α)),
      (sampleLoop l n rng ts mv).isSome = true := by
  intro n
  induction n with
  | zero =>
    intro rng ts mv
    simp [sampleLoop]
  | succ m ih =>
    intro rng ts mv
    have hidx : (draw rng l.length).1 < l.length :=
      draw_lt (List.length_pos.mpr hne) rng
    obtain ⟨v, hv⟩ := Option.isSome_iff_exists.mp (getElem?_isSome_of_lt hidx)
    rw [sampleLoop_succ hv]
    split
    · exact ih _ _ _
    · exact ih _ _ _

theorem sampleLoop_mem {l : List (CacheValue α)} :
    ∀ (n : Nat) (rng : List Nat) (ts : Int) (mv : Option (CacheValue α))
      (r : Int × Option (CacheValue α) × List Nat),
      sampleLoop l n rng ts mv = some r →
      ∀ u : CacheValue α, r.2.1 = some u → u ∈ l ∨ mv = some u := by
  intro n
  induction n with
  | zero =>
    intro rng ts mv r h u hu
    rw [sampleLoop] at h
    cases h
    exact Or.inr hu
  | succ m ih =>
    intro rng ts mv r h u hu
    cases hget : l[(draw rng l.length).1]? with
    | none =>
      rw [sampleLoop] at h
      simp only [hget] at h
      exact Option.noConfusion h
    | some v =>
      have hvmem : v ∈ l := List.getElem?_mem hget
      rw [sampleLoop_succ hget] at h
      split at h
      · rcases ih _ _ _ _ h u hu with hul | hmv
        · exact Or.inl hul
        · exact Or.inl (Option.some.inj hmv ▸ hvmem)
      · rcases ih _ _ _ _ h u hu with hul | hmv
        · exact Or.inl hul
        · exact Or.inr hmv

theorem sampleLoop_keeps_some {l : List (CacheValue α)} :
    ∀ (n : Nat) (rng : List Nat) (ts : Int) (u0 : CacheValue α)
      (r : Int × Option (CacheValue α) × List Nat),
      sampleLoop l n rng ts (some u0) = some r → ∃ u, r.2.1 = some u := by
  intro n
  induction n with
  | zero =>
    intro rng ts u0 r h
    rw [sampleLoop] at h
    cases h
    exact ⟨u0, rfl⟩
  | succ m ih =>
    intro rng ts u0 r h
    cases hget : l[(draw rng l.length).1]? with
    | none =>
      rw [sampleLoop] at h
      simp only [hget] at h
      exact Option.noConfusion h
    | some v =>
      rw [sampleLoop_succ hget] at h
      split at h
      · exact ih _ _ _ _ h
      · exact ih _ _ _ _ h

theorem sampleLoop_min_isSome {l : List (CacheValue α)} {ts : Int} (hne : l ≠ [])
    (hall : ∀ e ∈ l, e.expireAt < ts) (m : Nat) (rng : List Nat)
    (r : Int × Option (CacheValue α) × List Nat)
    (h : sampleLoop l (m + 1) rng ts none = some r) : ∃ u, r.2.1 = some u := by
  have hidx : (draw rng l.length).1 < l.length :=
    draw_lt (List.length_pos.mpr hne) rng
  obtain ⟨v, hv⟩ := Option.isSome_iff_exists.mp (getElem?_isSome_of_lt hidx)
  rw [sampleLoop_succ hv, if_pos (hall v (List.getElem?_mem hv))] at h
  exact sampleLoop_keeps_some _ _ _ _ _ h

theorem evictKey?_isSome {c : Cache α} (hne : c.data ≠ []) (now : Int)
    (rng : List Nat) : (evictKey? c now rng).isSome = true := by
  rw [evictKey?]
  obtain ⟨r, hr⟩ := Option.isSome_iff_exists.mp
    (sampleLoop_isSome hne (if c.nSamples = 0 then 1 else c.nSamples) rng (horizon now) none)
  rw [hr]
  rcases r with ⟨ts', mv, rng'⟩
  cases mv <;> simp

theorem evictKey?_shape {c : Cache α} {now : Int} {rng : List Nat}
    {r : Cache α × List Nat} (h : evictKey? c now rng = some r) :
    ∃ d, r.1 = { c with data := d } ∧ List.Sublist d c.data := by
  rw [evictKey?] at h
  cases hs : sampleLoop c.data (if c.nSamples = 0 then 1 else c.nSamples) rng
      (horizon now) none with
  | none =>
    rw [hs] at h
    simp at h
  | some t =>
    rw [hs] at h
    rcases t with ⟨ts', mv, rng'⟩
    cases mv with
    | none =>
      simp only [Option.some.injEq] at h
      rw [← h]
      exact ⟨c.data, rfl, List.Sublist.refl _⟩
    | some v =>
      simp only [Option.some.injEq] at h
      rw [← h]
      exact ⟨removeKey v.key c.data, rfl, removeKey_sublist _ _⟩

theorem evictKey?_removes_one {c : Cache α} {now : Int} {rng : List Nat}
    {r : Cache α × List Nat} (hne : c.data ≠ [])
    (hall : ∀ e ∈ c.data, e.expireAt < horizon now)
    (h : evictKey? c now rng = some r) :
    r.1.data.length + 1 = c.data.length := by
  rw [evictKey?] at h
  obtain ⟨m, hm⟩ : ∃ m, (if c.nSamples = 0 then 1 else c.nSamples) = m + 1 := by
    split
    · exact ⟨0, rfl⟩
    · exact ⟨c.nSamples - 1, by omega⟩
  rw [hm] at h
  cases hs : sampleLoop c.data (m + 1) rng (horizon now) none with
  | none =>
    rw [hs] at h
    simp at h
  | some t =>
    rw [hs] at h
    obtain ⟨u, hu⟩ := sampleLoop_min_isSome hne hall m rng t hs
    have humem : u ∈ c.data := by
      rcases sampleLoop_mem _ _ _ _ _ hs u hu with h' | h'
      · exact h'
      · cases h'
    rcases t with ⟨ts', mv, rng'⟩
    simp only at hu
    rw [hu] at h
    simp only [Option.some.injEq] at h
    rw [← h]
    exact removeKey_length ⟨u, humem, rfl⟩

theorem updateLoop?_isSome (now : Int) :
    ∀ (n : Nat) (c : Cache α) (rng : List Nat),
      (updateLoop? now c rng n).isSome = true := by
  intro n
  induction n with
  | zero =>
    intro c rng
    simp [updateLoop?]
  | succ m ih =>
    intro c rng
    rw [updateLoop?]
    by_cases hpos : 0 < c.data.length
    · rw [if_pos hpos]
      have hne : c.data ≠ [] := List.length_pos.mp hpos
      obtain ⟨r, hr⟩ := Option.isSome_iff_exists.mp (evictKey?_isSome hne now rng)
      rw [hr]
      rcases r with ⟨c', rng'⟩
      exact ih c' rng'
    · rw [if_neg hpos]
      simp

theorem updateLoop?_shape (now : Int) :
    ∀ (n : Nat) (c : Cache α) (rng : List Nat) (r : Cache α × List Nat),
      updateLoop? now c rng n = some r →
      ∃ d, r.1 = { c with data := d } ∧ List.Sublist d c.data := by
  intro n
  induction n with
  | zero =>
    intro c rng r h
    rw [updateLoop?] at h
    cases h
    exact ⟨c.data, rfl, List.Sublist.refl _⟩
  | succ m ih =>
    intro c rng r h
    rw [updateLoop?] at h
    by_cases hpos : 0 < c.data.length
    · rw [if_pos hpos] at h
      cases hev : evictKey? c now rng with
      | none =>
        rw [hev] at h
        simp at h
      | some r1 =>
        rw [hev] at h
        rcases r1 with ⟨c1, rng1⟩
        obtain ⟨d1, hc1, hd1⟩ := evictKey?_shape hev
        simp only at hc1
        subst hc1
        obtain ⟨d, hd, hds⟩ := ih _ rng1 r h
        exact ⟨d, hd, hds.trans hd1⟩
    · rw [if_neg hpos] at h
      cases h
      exact ⟨c.data, rfl, List.Sublist.refl _⟩

theorem update?_isSome (c : Cache α) (now : Int) (rng : List Nat) :
    (update? c now rng).isSome = true := by
  rw [update?]
  split
  · simp
  · exact updateLoop?_isSome now _ c rng

theorem update?_shape {c : Cache α} {now : Int} {rng : List Nat}
    {r : Cache α × List Nat} (h : update? c now rng = some r) :
    ∃ d, r.1 = { c with data := d } ∧ List.Sublist d c.data := by
  rw [update?] at h
  split at h
  · cases h
    exact ⟨c.data, rfl, List.Sublist.refl _⟩
  · exact updateLoop?_shape now _ c rng r h

theorem update?_eq_update (c : Cache α) (now : Int) (rng : List Nat) :
    update? c now rng = some (c.update now rng) := by
  obtain ⟨r, hr⟩ := Option.isSome_iff_exists.mp (update?_isSome c now rng)
  rw [Cache.update, hr]
  rfl

theorem update_shape (c : Cache α) (now : Int) (rng : List Nat) :
    ∃ d, (c.update now rng).1 = { c with data := d } ∧ List.Sublist d c.data :=
  update?_shape (update?_eq_update c now rng)

theorem update_noop {c : Cache α} (now : Int) (rng : List Nat)
    (h : c.max = 0 ∨ c.data.length < c.max) : c.update now rng = (c, rng) := by
  rw [Cache.update, update?, if_pos h]
  rfl

theorem updateLoop?_length (now : Int) :
    ∀ (n : Nat) (c : Cache α) (rng : List Nat) (r : Cache α × List Nat),
      (∀ e ∈ c.data, e.expireAt < horizon now) →
      updateLoop? now c rng n = some r →
      r.1.data.length = c.data.length - n := by
  intro n
  induction n with
  | zero =>
    intro c rng r hall h
    rw [updateLoop?] at h
    cases h
    simp
  | succ m ih =>
    intro c rng r hall h
    rw [updateLoop?] at h
    by_cases hpos : 0 < c.data.length
    · rw [if_pos hpos] at h
      cases hev : evictKey? c now rng with
      | none =>
        rw [hev] at h
        simp at h
      | some r1 =>
        rw [hev] at h
        have hne : c.data ≠ [] := List.length_pos.mp hpos
        have hlen1 := evictKey?_removes_one hne hall hev
        obtain ⟨d1, hc1, hd1⟩ := evictKey?_shape hev
        rcases r1 with ⟨c1, rng1⟩
        have hall1 : ∀ e ∈ c1.data, e.expireAt < horizon now := by
          intro e he
          simp only at hc1
          rw [hc1] at he
          exact hall e (hd1.mem he)
        have := ih c1 rng1 r hall1 h
        simp only at hlen1
        omega
    · rw [if_neg hpos] at h
      cases h
      show c.data.length = c.data.length - (m + 1)
      omega

theorem popRandom?_isSome (c : Cache α) (rng : List Nat) :
    (popRandom? c rng).isSome = true := by
  rw [popRandom?]
  by_cases h : c.data.length ≠ 0
  · rw [if_pos h]
    have hidx : (draw rng c.data.length).1 < c.data.length :=
      draw_lt (Nat.pos_of_ne_zero h) rng
    obtain ⟨v, hv⟩ := Option.isSome_iff_exists.mp (getElem?_isSome_of_lt hidx)
    simp [hv]
  · rw [if_neg h]
    simp

end ExpiringCache

namespace ExpiringCache

variable {α : Type}

/-! ### Lemmas about the cache operations -/

theorem putWithExpiry_findKey_self (c : Cache α) (key : String) (value : Option α)
    (duration now : Int) (rng : List Nat) :
    ∃ ts, findKey key (c.putWithExpiry key value duration now rng).1.data =
      some ⟨key, value, ts⟩ := by
  by_cases hdup :
      (addEntry ⟨key, value, now + duration⟩ (c.update now rng).1.data).2 = true
  · have h1 := addEntry_dup_fst hdup
    have h2 := addEntry_dup_findKey hdup
    obtain ⟨e, he⟩ := Option.isSome_iff_exists.mp h2
    have hk := findKey_some_key he
    refine ⟨e.expireAt, ?_⟩
    simp only [Cache.putWithExpiry, hdup, if_true]
    rw [h1, findKey_updateValue, he]
    simp [hk]
  · refine ⟨now + duration, ?_⟩
    have hf : (addEntry ⟨key, value, now + duration⟩ (c.update now rng).1.data).2 = false := by
      revert hdup
      cases (addEntry ⟨key, value, now + duration⟩ (c.update now rng).1.data).2 <;> simp
    simp only [Cache.putWithExpiry, hdup, if_false]
    exact addEntry_not_dup_findKey hf

theorem putWithExpiry_get_self (c : Cache α) (key : String) (value : Option α)
    (duration now : Int) (rng : List Nat) :
    (c.putWithExpiry key value duration now rng).1.get key = value ∧
    (c.putWithExpiry key value duration now rng).1.keyExists key = true := by
  obtain ⟨ts, h⟩ := putWithExpiry_findKey_self c key value duration now rng
  constructor
  · simp [Cache.get, h]
  · simp [Cache.keyExists, h]

theorem putWithExpiry_sorted {c : Cache α} (hs : StrictSorted c.data)
    (key : String) (value : Option α) (duration now : Int) (rng : List Nat) :
    StrictSorted (c.putWithExpiry key value duration now rng).1.data := by
  obtain ⟨d, hd, hsub⟩ := update_shape c now rng
  have hs' : StrictSorted (c.update now rng).1.data := by
    rw [hd]
    exact List.Pairwise.sublist hsub hs
  by_cases hdup :
      (addEntry ⟨key, value, now + duration⟩ (c.update now rng).1.data).2 = true
  · simp only [Cache.putWithExpiry, hdup, if_true]
    refine updateValue_sorted ?_ key value
    rw [addEntry_dup_fst hdup]
    exact hs'
  · simp only [Cache.putWithExpiry, hdup, if_false]
    exact addEntry_sorted hs' _

theorem popRandom?_eq_popRandom (c : Cache α) (rng : List Nat) :
    popRandom? c rng = some (c.popRandom rng) := by
  obtain ⟨r, hr⟩ := Option.isSome_iff_exists.mp (popRandom?_isSome c rng)
  rw [Cache.popRandom, hr]
  rfl

theorem popRandom_shape (c : Cache α) (rng : List Nat) :
    ∃ d, (c.popRandom rng).2.1 = { c with data := d } ∧ List.Sublist d c.data := by
  have h := popRandom?_eq_popRandom c rng
  rw [popRandom?] at h
  by_cases hl : c.data.length ≠ 0
  · rw [if_pos hl] at h
    have hidx : (draw rng c.data.length).1 < c.data.length :=
      draw_lt (Nat.pos_of_ne_zero hl) rng
    obtain ⟨v, hv⟩ := Option.isSome_iff_exists.mp (getElem?_isSome_of_lt hidx)
    simp only [hv, Option.some.injEq] at h
    rw [← h]
    exact ⟨removeKey v.key c.data, rfl, removeKey_sublist _ _⟩
  · rw [if_neg hl] at h
    simp only [Option.some.injEq] at h
    rw [← h]
    exact ⟨c.data, rfl, List.Sublist.refl _⟩

theorem foldl_removeKey_sublist :
    ∀ (rs l : List (CacheValue α)),
      List.Sublist (rs.foldl (fun acc v => removeKey v.key acc) l) l := by
  intro rs
  induction rs with
  | nil =>
    intro l
    exact List.Sublist.refl _
  | cons r rs ih =>
    intro l
    simp only [List.foldl_cons]
    exact (ih _).trans (removeKey_sublist _ _)

theorem sweepOnce_sorted {c : Cache α} (hs : StrictSorted c.data) (now : Int) :
    StrictSorted (c.sweepOnce now).data := by
  simp only [Cache.sweepOnce]
  exact List.Pairwise.sublist (foldl_removeKey_sublist _ _) hs

theorem applyOp_sorted {c : Cache α} (hs : StrictSorted c.data) (op : Op α) :
    StrictSorted (applyOp c op).data := by
  cases op with
  | put k v now rng =>
    simp only [applyOp, Cache.put]
    exact putWithExpiry_sorted hs k v c.duration now rng
  | putWithExpiry k v d now rng =>
    simp only [applyOp]
    exact putWithExpiry_sorted hs k v d now rng
  | get k => exact hs
  | del k =>
    simp only [applyOp, Cache.del]
    exact List.Pairwise.sublist (removeKey_sublist k c.data) hs
  | popRandom rng =>
    obtain ⟨d, hd, hsub⟩ := popRandom_shape c rng
    simp only [applyOp]
    rw [hd]
    exact List.Pairwise.sublist hsub hs
  | keyExists k => exact hs
  | count => exact hs
  | iter => exact hs
  | sweep now =>
    simp only [applyOp]
    exact sweepOnce_sorted hs now

theorem run_sorted :
    ∀ (ops : List (Op α)) (c : Cache α),
      StrictSorted c.data → StrictSorted (run c ops).data := by
  intro ops
  induction ops with
  | nil =>
    intro c h
    exact h
  | cons op ops ih =>
    intro c h
    simp only [run, List.foldl_cons]
    exact ih _ (applyOp_sorted h op)

theorem nodup_key_inj {l : List (CacheValue α)} (h : NodupKeys l) {u w : CacheValue α}
    (hu : u ∈ l) (hw : w ∈ l) (huw : u.key = w.key) : u = w := by
  induction l with
  | nil => cases hu
  | cons x xs ih =>
    rcases List.pairwise_cons.mp h with ⟨hx, hxs⟩
    rcases List.mem_cons.mp hu with rfl | hu'
    · rcases List.mem_cons.mp hw with rfl | hw'
      · rfl
      · exact absurd huw (hx w hw')
    · rcases List.mem_cons.mp hw with rfl | hw'
      · exact absurd huw.symm (hx u hu')
      · exact ih hxs hu' hw'

theorem foldl_removeKey_eq_filter :
    ∀ (rs l : List (CacheValue α)), NodupKeys l →
      rs.foldl (fun acc v => removeKey v.key acc) l =
        l.filter fun w => ! decide (w.key ∈ rs.map CacheValue.key) := by
  intro rs
  induction rs with
  | nil =>
    intro l h
    simp
  | cons r rs ih =>
    intro l h
    simp only [List.foldl_cons]
    rw [removeKey_eq_filter h]
    have h' : NodupKeys (l.filter fun w => ! decide (w.key = r.key)) :=
      List.Pairwise.sublist (List.filter_sublist _) h
    rw [ih _ h', List.filter_filter]
    refine List.filter_congr fun w _ => ?_
    by_cases h1 : w.key = r.key <;>
      by_cases h2 : w.key ∈ rs.map CacheValue.key <;>
        simp [h1, h2, List.mem_cons]

theorem sweepOnce_data {c : Cache α} (h : NodupKeys c.data) (now : Int) :
    (c.sweepOnce now).data = c.data.filter fun v => decide (now < v.expireAt) := by
  simp only [Cache.sweepOnce]
  rw [foldl_removeKey_eq_filter _ _ h]
  refine List.filter_congr fun w hw => ?_
  by_cases hexp : now < w.expireAt
  · have hnot : w.key ∉
        (c.data.filter fun v => ! decide (v.expireAt > now)).map CacheValue.key := by
      intro hmem
      obtain ⟨u, hu, huk⟩ := List.mem_map.mp hmem
      have hu1 := List.mem_of_mem_filter hu
      have hu2 := List.of_mem_filter hu
      have heq : u = w := nodup_key_inj h hu1 hw huk
      subst heq
      simp only [Bool.not_eq_true', decide_eq_false_iff_not, not_lt] at hu2
      omega
    simp [hnot, hexp]
  · have hmem : w.key ∈
        (c.data.filter fun v => ! decide (v.expireAt > now)).map CacheValue.key := by
      refine List.mem_map.mpr ⟨w, List.mem_filter.mpr ⟨hw, ?_⟩, rfl⟩
      simp only [Bool.not_eq_true', decide_eq_false_iff_not, not_lt]
      omega
    simp [hmem, hexp]

end ExpiringCache

namespace ExpiringCache

variable {α : Type}

theorem putWithExpiry_length_le (c : Cache α) (key : String) (value : Option α)
    (duration now : Int) (rng : List Nat) :
    (c.putWithExpiry key value duration now rng).1.data.length ≤
      (c.update now rng).1.data.length + 1 := by
  have hlen := addEntry_fst_length (⟨key, value, now + duration⟩ : CacheValue α)
    (c.update now rng).1.data
  by_cases hdup :
      (addEntry ⟨key, value, now + duration⟩ (c.update now rng).1.data).2 = true
  · simp only [Cache.putWithExpiry, hdup, if_true]
    rw [updateValue_length]
    rw [if_pos hdup] at hlen
    omega
  · simp only [Cache.putWithExpiry, hdup, Bool.false_eq_true, if_false]
    rw [if_neg hdup] at hlen
    omega

/-! ### The claims -/

/-- C1, counterexample: the claim quantifies over every cache state with `k`
present, but when the capacity-eviction pass (which runs before the insert)
evicts `k` itself, the re-inserted entry carries the fresh `ExpireAt`
`now + duration`, not the original one.  Here `Max = 1` and the store is at
capacity, so the single entry `("a", 1, 100)` is evicted and re-added with
`ExpireAt = 1000 + 5 = 1005 ≠ 100`. -/
theorem putWithExpiry_refreshes_expiry_on_eviction_path :
    findKey "a" (⟨10, 1, 1, 1, 0, [⟨"a", some 1, 100⟩]⟩ : Cache Int).data =
      some ⟨"a", some 1, 100⟩ ∧
    ((⟨10, 1, 1, 1, 0, [⟨"a", some 1, 100⟩]⟩ : Cache Int).putWithExpiry
        "a" (some 2) 5 1000 [0]).1.data = [⟨"a", some 2, 1005⟩] ∧
    (1005 : Int) ≠ 100 := by decide

/-- C1, amended: for every key still present when the insert happens (i.e.
present after the capacity-eviction pass), `PutWithExpiry` updates only the
Value: the entry keeps its original `ExpireAt` (it is not refreshed to
`now + duration`) and the store size is unchanged (no duplicate entry). -/
theorem putWithExpiry_existing_updates_value_only (c : Cache α) (key : String)
    (value : Option α) (duration now : Int) (rng : List Nat) (e : CacheValue α)
    (hs : StrictSorted c.data)
    (hfind : findKey key (c.update now rng).1.data = some e) :
    findKey key (c.putWithExpiry key value duration now rng).1.data =
      some ⟨key, value, e.expireAt⟩ ∧
    (c.putWithExpiry key value duration now rng).1.data.length =
      (c.update now rng).1.data.length := by
  have hs' : StrictSorted (c.update now rng).1.data := by
    obtain ⟨d, hd, hsub⟩ := update_shape c now rng
    rw [hd]
    exact List.Pairwise.sublist hsub hs
  have hisSome : (findKey key (c.update now rng).1.data).isSome = true := by
    rw [hfind]
    rfl
  have hadd := addEntry_of_findKey_isSome
    (v := (⟨key, value, now + duration⟩ : CacheValue α)) hs' hisSome
  have hdup : (addEntry ⟨key, value, now + duration⟩ (c.update now rng).1.data).2 = true := by
    rw [hadd]
  have hfst : (addEntry ⟨key, value, now + duration⟩ (c.update now rng).1.data).1 =
      (c.update now rng).1.data := by
    rw [hadd]
  constructor
  · simp only [Cache.putWithExpiry, hdup, if_true]
    rw [hfst, findKey_updateValue, hfind]
    have hk := findKey_some_key hfind
    simp [hk]
  · simp only [Cache.putWithExpiry, hdup, if_true]
    rw [updateValue_length, hfst]

/-- C1, witness for the amended theorem: `Max = 0`, so the eviction pass is a
no-op and `"a"` survives it; putting `("a", 2)` with duration 5 at `now = 1000`
keeps the original `ExpireAt = 100`. -/
theorem putWithExpiry_existing_updates_value_only_witness :
    findKey "a" ((⟨10, 0, 0, 0, 0, [⟨"a", some 1, 100⟩]⟩ : Cache Int).putWithExpiry
        "a" (some 2) 5 1000 []).1.data = some ⟨"a", some 2, 100⟩ ∧
    ((⟨10, 0, 0, 0, 0, [⟨"a", some 1, 100⟩]⟩ : Cache Int).putWithExpiry
        "a" (some 2) 5 1000 []).1.data.length =
      ((⟨10, 0, 0, 0, 0, [⟨"a", some 1, 100⟩]⟩ : Cache Int).update 1000 []).1.data.length :=
  putWithExpiry_existing_updates_value_only
    (⟨10, 0, 0, 0, 0, [⟨"a", some 1, 100⟩]⟩ : Cache Int) "a" (some 2) 5 1000 []
    ⟨"a", some 1, 100⟩ (by decide) (by decide)

/-- C2, evaluation of the code at the failing input: a store whose only entry
expires exactly one year from `now` (`ExpireAt = horizon 0`), `NSamples = 1`.
The sampled entry never satisfies `v.ExpireAt < min_ts` because `min_ts` is
initialised to `now + 365*86400`, so `min_v` stays nil and the round removes
nothing, although the sample was non-empty. -/
theorem evictKey_far_future_removes_nothing :
    evictKey? (⟨0, 1, 1, 1, 0, [⟨"a", some 1, horizon 0⟩]⟩ : Cache Int) 0 [0] =
      some (⟨0, 1, 1, 1, 0, [⟨"a", some 1, horizon 0⟩]⟩, []) ∧
    ([⟨"a", some 1, horizon 0⟩] : List (CacheValue Int)).length = 1 := by decide

/-- C3: (i) if the cache is at or above capacity (`0 < Max ≤ Count`), every
stored entry expires before the sampler's `now + 365*86400` sentinel (so
every eviction round actually removes an entry), and `NEvictions` rounds are
enough (`Count + 1 ≤ NEvictions + Max`), then the put leaves
`Count ≤ Max`; (ii) the eviction pass is a no-op when `Max = 0` or
`Count < Max`. -/
theorem put_capacity_bound (c : Cache α) (key : String) (value : Option α)
    (duration now : Int) (rng : List Nat) :
    (0 < c.max → c.max ≤ c.data.length →
      (∀ e ∈ c.data, e.expireAt < horizon now) →
      c.data.length + 1 ≤ c.nEvictions + c.max →
      (c.putWithExpiry key value duration now rng).1.data.length ≤ c.max) ∧
    (c.max = 0 ∨ c.data.length < c.max → c.update now rng = (c, rng)) := by
  constructor
  · intro hmax hfull hall hev
    have hup := update?_eq_update c now rng
    rw [update?, if_neg (fun h => by rcases h with h | h <;> omega)] at hup
    have hlen := updateLoop?_length now c.nEvictions c rng (c.update now rng) hall hup
    have hle := putWithExpiry_length_le c key value duration now rng
    omega
  · intro h
    exact update_noop now rng h

/-- C3, witness: a full cache (`Max = 1`, one entry expiring well inside the
year) stays at `Count ≤ 1` after the put, and a `Max = 0` cache's eviction
pass is the identity. -/
theorem put_capacity_bound_witness :
    ((⟨10, 1, 1, 1, 0, [⟨"a", some 1, 100⟩]⟩ : Cache Int).putWithExpiry
        "b" (some 2) 5 1000 [0]).1.data.length ≤ 1 ∧
    (⟨10, 0, 0, 0, 0, [⟨"a", some 1, 100⟩]⟩ : Cache Int).update 1000 [0] =
      ((⟨10, 0, 0, 0, 0, [⟨"a", some 1, 100⟩]⟩ : Cache Int), [0]) :=
  ⟨(put_capacity_bound (⟨10, 1, 1, 1, 0, [⟨"a", some 1, 100⟩]⟩ : Cache Int)
      "b" (some 2) 5 1000 [0]).1 (by decide) (by decide) (by decide) (by decide),
   (put_capacity_bound (⟨10, 0, 0, 0, 0, [⟨"a", some 1, 100⟩]⟩ : Cache Int)
      "b" (some 2) 5 1000 [0]).2 (Or.inl rfl)⟩

/-- C4: starting from an initialized empty cache, after any sequence of
operations the store holds at most one entry per key. -/
theorem run_at_most_one_entry_per_key (duration : Int)
    (max nEvictions nSamples per : Nat) (ops : List (Op α)) (k : String) :
    ((run (Cache.init duration max nEvictions nSamples per) ops).data.filter
      fun e => decide (e.key = k)).length ≤ 1 := by
  have hs : StrictSorted (run (Cache.init duration max nEvictions nSamples per) ops).data :=
    run_sorted ops _ (by simp [Cache.init])
  exact nodupKeys_filter_key_length_le_one hs.nodupKeys k

/-- C5: one sweep pass at time `now` keeps exactly the entries with
`ExpireAt > now`: everything remaining has `ExpireAt > now`, and everything
removed had `ExpireAt ≤ now`. -/
theorem sweep_removes_exactly_expired (c : Cache α) (now : Int)
    (h : NodupKeys c.data) :
    (c.sweepOnce now).data = c.data.filter (fun v => decide (now < v.expireAt)) ∧
    (∀ v ∈ (c.sweepOnce now).data, now < v.expireAt) ∧
    (∀ v ∈ c.data, v ∉ (c.sweepOnce now).data → v.expireAt ≤ now) := by
  have hd := sweepOnce_data h now
  refine ⟨hd, ?_, ?_⟩
  · intro v hv
    rw [hd] at hv
    have := List.of_mem_filter hv
    simpa using this
  · intro v hv hnot
    rw [hd] at hnot
    by_contra hgt
    push_neg at hgt
    exact hnot (List.mem_filter.mpr ⟨hv, by simpa using hgt⟩)

/-- C5, witness: sweeping `[("a",5), ("b",100)]` at `now = 10` removes exactly
the expired entry `("a",5)`. -/
theorem sweep_removes_exactly_expired_witness :
    ((⟨0, 0, 0, 0, 1, [⟨"a", some 1, 5⟩, ⟨"b", some 2, 100⟩]⟩ : Cache Int).sweepOnce 10).data =
      ([⟨"a", some 1, 5⟩, ⟨"b", some 2, 100⟩] : List (CacheValue Int)).filter
        (fun v => decide ((10 : Int) < v.expireAt)) ∧
    (∀ v ∈ ((⟨0, 0, 0, 0, 1, [⟨"a", some 1, 5⟩, ⟨"b", some 2, 100⟩]⟩ : Cache Int).sweepOnce
        10).data, (10 : Int) < v.expireAt) ∧
    (∀ v ∈ (⟨0, 0, 0, 0, 1, [⟨"a", some 1, 5⟩, ⟨"b", some 2, 100⟩]⟩ : Cache Int).data,
      v ∉ ((⟨0, 0, 0, 0, 1, [⟨"a", some 1, 5⟩, ⟨"b", some 2, 100⟩]⟩ : Cache Int).sweepOnce
        10).data → v.expireAt ≤ 10) :=
  sweep_removes_exactly_expired
    (⟨0, 0, 0, 0, 1, [⟨"a", some 1, 5⟩, ⟨"b", some 2, 100⟩]⟩ : Cache Int) 10 (by decide)

/-- C6: for a present key, `Get` returns the stored Value and `Exists`
returns true even when the entry is already expired (`ExpireAt ≤ now`), and
neither operation changes the store. -/
theorem get_exists_ignore_expiry (c : Cache α) (key : String) (e : CacheValue α)
    (now : Int) (hfind : findKey key c.data = some e) (hexpired : e.expireAt ≤ now) :
    c.get key = e.value ∧ c.keyExists key = true ∧
    applyOp c (Op.get key) = c ∧ applyOp c (Op.keyExists key) = c := by
  refine ⟨?_, ?_, rfl, rfl⟩
  · simp [Cache.get, hfind]
  · simp [Cache.keyExists, hfind]

/-- C6, witness: the entry `("a",7)` expired at 5, yet at `now = 10` it is
still returned by `Get` and reported by `Exists`. -/
theorem get_exists_ignore_expiry_witness :
    (⟨0, 0, 0, 0, 0, [⟨"a", some 7, 5⟩]⟩ : Cache Int).get "a" = some 7 ∧
    (⟨0, 0, 0, 0, 0, [⟨"a", some 7, 5⟩]⟩ : Cache Int).keyExists "a" = true ∧
    applyOp (⟨0, 0, 0, 0, 0, [⟨"a", some 7, 5⟩]⟩ : Cache Int) (Op.get "a") =
      (⟨0, 0, 0, 0, 0, [⟨"a", some 7, 5⟩]⟩ : Cache Int) ∧
    applyOp (⟨0, 0, 0, 0, 0, [⟨"a", some 7, 5⟩]⟩ : Cache Int) (Op.keyExists "a") =
      (⟨0, 0, 0, 0, 0, [⟨"a", some 7, 5⟩]⟩ : Cache Int) :=
  get_exists_ignore_expiry (⟨0, 0, 0, 0, 0, [⟨"a", some 7, 5⟩]⟩ : Cache Int) "a"
    ⟨"a", some 7, 5⟩ 10 (by decide) (by decide)

/-- C7: on an empty store `PopRandom` returns the nil sentinel and leaves the
cache unchanged; on a non-empty store it draws `r mod Count ∈ [0, Count)`,
returns the Value of the entry at that index, and removes exactly that
entry. -/
theorem popRandom_spec (c : Cache α) (r : Nat) (rest rng : List Nat) :
    (c.data = [] → c.popRandom rng = (none, c, rng)) ∧
    (NodupKeys c.data → c.data ≠ [] →
      r % c.data.length < c.data.length ∧
      ∃ v, c.data[r % c.data.length]? = some v ∧
        c.popRandom (r :: rest) =
          (v.value, { c with data := c.data.eraseIdx (r % c.data.length) }, rest)) := by
  constructor
  · intro hnil
    have h := popRandom?_eq_popRandom c rng
    rw [popRandom?, if_neg (by rw [hnil]; simp)] at h
    exact (Option.some.inj h).symm
  · intro hnodup hne
    have hpos : 0 < c.data.length := List.length_pos.mpr hne
    have hidx : r % c.data.length < c.data.length := Nat.mod_lt r hpos
    obtain ⟨v, hv⟩ := Option.isSome_iff_exists.mp (getElem?_isSome_of_lt hidx)
    refine ⟨hidx, v, hv, ?_⟩
    have h := popRandom?_eq_popRandom c (r :: rest)
    rw [popRandom?, if_pos (by omega)] at h
    simp only [draw] at h
    rw [hv] at h
    simp only [Option.some.injEq] at h
    rw [← h, removeKey_eq_eraseIdx hnodup hv]

/-- C7, witness: popping from the two-entry store with draw `r = 3` picks
index `3 mod 2 = 1`, returns the value of `("b",100)` and erases it; popping
from the empty cache returns the nil sentinel unchanged. -/
theorem popRandom_spec_witness :
    ((⟨0, 0, 0, 0, 0, []⟩ : Cache Int).popRandom [5] =
      (none, (⟨0, 0, 0, 0, 0, []⟩ : Cache Int), [5])) ∧
    (3 % (⟨0, 0, 0, 0, 0, [⟨"a", some 1, 5⟩, ⟨"b", some 2, 100⟩]⟩ : Cache Int).data.length <
      (⟨0, 0, 0, 0, 0, [⟨"a", some 1, 5⟩, ⟨"b", some 2, 100⟩]⟩ : Cache Int).data.length ∧
    ∃ v, (⟨0, 0, 0, 0, 0, [⟨"a", some 1, 5⟩, ⟨"b", some 2, 100⟩]⟩ : Cache Int).data[
        3 % (⟨0, 0, 0, 0, 0, [⟨"a", some 1, 5⟩, ⟨"b", some 2, 100⟩]⟩ : Cache Int).data.length]? =
        some v ∧
      (⟨0, 0, 0, 0, 0, [⟨"a", some 1, 5⟩, ⟨"b", some 2, 100⟩]⟩ : Cache Int).popRandom [3] =
        (v.value,
          { (⟨0, 0, 0, 0, 0, [⟨"a", some 1, 5⟩, ⟨"b", some 2, 100⟩]⟩ : Cache Int) with
            data := (⟨0, 0, 0, 0, 0, [⟨"a", some 1, 5⟩, ⟨"b", some 2, 100⟩]⟩ : Cache Int).data.eraseIdx
              (3 % (⟨0, 0, 0, 0, 0, [⟨"a", some 1, 5⟩, ⟨"b", some 2, 100⟩]⟩ : Cache Int).data.length) },
          [])) :=
  ⟨(popRandom_spec (⟨0, 0, 0, 0, 0, []⟩ : Cache Int) 3 [] [5]).1 rfl,
   (popRandom_spec (⟨0, 0, 0, 0, 0, [⟨"a", some 1, 5⟩, ⟨"b", some 2, 100⟩]⟩ : Cache Int)
      3 [] [5]).2 (by decide) (by decide)⟩

/-- C8: `Put(key, value)` is exactly `PutWithExpiry(key, value, Duration)`
with the cache's configured default duration: the resulting state (and the
consumed random stream) coincide. -/
theorem put_eq_putSpec (c : Cache α) (key : String) (value : Option α)
    (now : Int) (rng : List Nat) :
    c.put key value now rng = c.putSpec key value now rng := rfl

/-- C9: no random-index access goes out of bounds: the eviction pass and
`PopRandom` never hit the panic case (`rand.Intn(0)` or an out-of-bounds
`At`), and `evictKey` itself is safe whenever the store is non-empty, which
the `update` loop guarantees at each of its call sites. -/
theorem random_access_in_bounds (c : Cache α) (now : Int) (rng rng2 rng3 : List Nat) :
    (update? c now rng).isSome = true ∧
    (popRandom? c rng2).isSome = true ∧
    (c.data ≠ [] → (evictKey? c now rng3).isSome = true) :=
  ⟨update?_isSome c now rng, popRandom?_isSome c rng2,
    fun hne => evictKey?_isSome hne now rng3⟩

/-- C9, witness at a concrete over-capacity cache (`Max = 1`, one entry). -/
theorem random_access_in_bounds_witness :
    (update? (⟨10, 1, 1, 1, 0, [⟨"a", some 1, 100⟩]⟩ : Cache Int) 0 [0]).isSome = true ∧
    (popRandom? (⟨10, 1, 1, 1, 0, [⟨"a", some 1, 100⟩]⟩ : Cache Int) [1]).isSome = true ∧
    (evictKey? (⟨10, 1, 1, 1, 0, [⟨"a", some 1, 100⟩]⟩ : Cache Int) 0 [2]).isSome = true :=
  ⟨(random_access_in_bounds (⟨10, 1, 1, 1, 0, [⟨"a", some 1, 100⟩]⟩ : Cache Int) 0 [0] [1] [2]).1,
   (random_access_in_bounds (⟨10, 1, 1, 1, 0, [⟨"a", some 1, 100⟩]⟩ : Cache Int) 0 [0] [1] [2]).2.1,
   (random_access_in_bounds (⟨10, 1, 1, 1, 0, [⟨"a", some 1, 100⟩]⟩ : Cache Int) 0 [0] [1] [2]).2.2
     (by decide)⟩

/-- C10: after putting key `k` with the nil value, `Get k` returns the same
nil sentinel as `Get j` for an absent key `j`, while `Exists` still tells the
two states apart (`true` for `k`, `false` for `j`). -/
theorem nil_value_indistinguishable (c : Cache α) (k j : String)
    (duration now : Int) (rng : List Nat)
    (hj : findKey j (c.putWithExpiry k none duration now rng).1.data = none) :
    (c.putWithExpiry k none duration now rng).1.get k = none ∧
    (c.putWithExpiry k none duration now rng).1.keyExists k = true ∧
    (c.putWithExpiry k none duration now rng).1.get j = none ∧
    (c.putWithExpiry k none duration now rng).1.keyExists j = false ∧
    (c.putWithExpiry k none duration now rng).1.get k =
      (c.putWithExpiry k none duration now rng).1.get j := by
  obtain ⟨hget, hex⟩ := putWithExpiry_get_self c k none duration now rng
  refine ⟨hget, hex, ?_, ?_, ?_⟩
  · simp [Cache.get, hj]
  · simp [Cache.keyExists, hj]
  · rw [hget]
    simp [Cache.get, hj]

/-- C10, witness: put `("a", nil)` into the empty cache; `Get "a"` and
`Get "b"` are both the nil sentinel, `Exists` distinguishes them. -/
theorem nil_value_indistinguishable_witness :
    ((⟨7, 0, 0, 0, 0, []⟩ : Cache Int).putWithExpiry "a" none 7 1000 []).1.get "a" = none ∧
    ((⟨7, 0, 0, 0, 0, []⟩ : Cache Int).putWithExpiry "a" none 7 1000 []).1.keyExists "a" = true ∧
    ((⟨7, 0, 0, 0, 0, []⟩ : Cache Int).putWithExpiry "a" none 7 1000 []).1.get "b" = none ∧
    ((⟨7, 0, 0, 0, 0, []⟩ : Cache Int).putWithExpiry "a" none 7 1000 []).1.keyExists "b" = false ∧
    ((⟨7, 0, 0, 0, 0, []⟩ : Cache Int).putWithExpiry "a" none 7 1000 []).1.get "a" =
      ((⟨7, 0, 0, 0, 0, []⟩ : Cache Int).putWithExpiry "a" none 7 1000 []).1.get "b" :=
  nil_value_indistinguishable (⟨7, 0, 0, 0, 0, []⟩ : Cache Int) "a" "b" 7 1000 [] (by decide)

end ExpiringCache
